import Mathlib

/-!
Verification development for the seqlib edit-distance engine (`src/libs/myers.h`).

The repository ships only the interface header `myers.h`: it documents the
contract of `myersCalcEditDistance` (Levenshtein distance with four boundary
modes NW/HW/SHW/OV, Ukkonen threshold growth, traceback to an edit-operation
sequence) and of `edlibAlignmentToCigar` (run-length CIGAR encoding).  The
function bodies are not part of the repository, so every operation below is
modelled from the specification and the header's doc comments, and is written
as an executable shallow embedding: sequences are `List Nat` of alphabet
indices, the implicit DP matrix is built column by column over the target,
scores are `Nat`, the C `-1` sentinels live in `Int`, and NULL-able output
buffers are `Option`.
-/

namespace Myers

/-- Status code `MYERS_STATUS_OK` (value 0) from `myers.h`. -/
def MYERS_STATUS_OK : Nat := 0

/-- Status code `MYERS_STATUS_ERROR` (value 1) from `myers.h`. -/
def MYERS_STATUS_ERROR : Nat := 1

/-- Alignment modes from `myers.h` (`MYERS_MODE_HW = 0`, `MYERS_MODE_NW = 1`,
`MYERS_MODE_SHW = 2`, `MYERS_MODE_OV = 3`). -/
inductive Mode where
  | HW
  | NW
  | SHW
  | OV
  deriving DecidableEq

/-- Modelled from the spec: the mode table of spec section 4.3 together with the
header's mode comments.  `true` iff target characters lying before the start of
the query are free, i.e. row 0 of every DP column starts at 0 (HW: "gaps before
and after query are not penalized"; OV frees gaps on both sequences). -/
def freeLeadQueryGap : Mode → Bool
  | .HW => true
  | .NW => false
  | .SHW => false
  | .OV => true

/-- Modelled from the spec: `true` iff query characters lying before the start
of the target are free, i.e. the initial DP column (before any target symbol is
consumed) is all zero.  Only OV frees gaps on the target side. -/
def freeLeadTargetGap : Mode → Bool
  | .OV => true
  | _ => false

/-- Modelled from the spec: `true` iff target characters after the end of the
query are free, so every target column is eligible as an end column.  In NW the
trailing gap is charged and only the last column is eligible. -/
def freeTrailGap : Mode → Bool
  | .NW => false
  | _ => true

/-- Modelled from the spec: one step of the column-by-column DP of spec section
4.1 (the bit-parallel engine's per-column update, with the word packing
abstracted away).  Given the previous column `prev` (as a function from query
row to score) and the current target symbol `c`, produce the next column:
row 0 is 0 when the gap before the query is free, otherwise grows by 1 per
column; row `i+1` is the minimum of the diagonal move (cost 0 on match, 1 on
mismatch), the horizontal move and the vertical move, each indel costing 1. -/
def colNext (q : List Nat) (free0 : Bool) (c : Nat) (prev : Nat → Nat) : Nat → Nat
  | 0 => if free0 then 0 else prev 0 + 1
  | i + 1 =>
      min (prev i + (if q.getD i 0 = c then 0 else 1))
        (min (prev (i + 1) + 1) (colNext q free0 c prev i + 1))

/-- Modelled from the spec: the initial score vector before processing any
target column (spec section 4.1).  Row `i` is `i` (cost of `i` insertions to
query), or 0 when query characters before the target's start are free (OV). -/
def colInit (freeT : Bool) : Nat → Nat :=
  fun i => if freeT then 0 else i

/-- Modelled from the spec: the DP column reached after consuming a list of
target symbols; the argument list is the processed target segment in reverse
order (most recently consumed symbol first). -/
def colOf (q : List Nat) (free0 freeT : Bool) : List Nat → Nat → Nat
  | [] => colInit freeT
  | c :: rs => colNext q free0 c (colOf q free0 freeT rs)

/-- The DP column of index `j` (0 ≤ j ≤ |target|): scores after consuming the
first `j` target symbols, as a function of the query row. -/
def colAt (mode : Mode) (q t : List Nat) (j : Nat) : Nat → Nat :=
  colOf q (freeLeadQueryGap mode) (freeLeadTargetGap mode) ((t.take j).reverse)

/-- Bottom-row score of column `j`: the whole query consumed, `j` target
symbols consumed. -/
def bottomAt (mode : Mode) (q t : List Nat) (j : Nat) : Nat :=
  colAt mode q t j q.length

/-- Minimum of a list of naturals (0 on the empty list; every use below is on a
structurally nonempty list). -/
def minL : List Nat → Nat
  | [] => 0
  | [x] => x
  | x :: y :: xs => min x (minL (y :: xs))

/-- Modelled from the spec: the DP columns scanned for the minimal score at the
end (spec section 4.1: "which columns are scanned for minimal score").  NW
requires the whole target to be consumed, so only column `n` is eligible; the
semi-global modes scan every real column `1..n`; when the target is empty the
only column is the initial one (reported as position `-1`, the absent-column
convention of spec scenario 3). -/
def eligCols (mode : Mode) (n : Nat) : List Nat :=
  match mode with
  | .NW => [n]
  | _ => if n = 0 then [0] else List.range' 1 n

/-- Minimum over the whole last DP column (used by OV, where query characters
after the target's end are free, so the alignment may end anywhere in the last
column). -/
def lastColMin (mode : Mode) (q t : List Nat) : Nat :=
  minL ((List.range (q.length + 1)).map (colAt mode q t t.length))

/-- Modelled from the spec: the exact best (minimal) score achievable under the
active mode — the quantity the engine reports when it is at most the threshold
`k` (spec section 4.1 result policy). -/
def modeBestScore (mode : Mode) (q t : List Nat) : Nat :=
  match mode with
  | .OV => min (minL ((eligCols .OV t.length).map (bottomAt .OV q t))) (lastColMin .OV q t)
  | _ => minL ((eligCols mode t.length).map (bottomAt mode q t))

/-- Whether eligible column `j` is reported as an end position: its bottom-row
score equals the best score, or (OV only) it is the last column and the best
score is achieved somewhere inside that column. -/
def posElig (mode : Mode) (q t : List Nat) (j : Nat) : Bool :=
  decide (bottomAt mode q t j = modeBestScore mode q t) ||
    (match mode with
     | .OV => decide (j = t.length ∧ lastColMin .OV q t = modeBestScore .OV q t)
     | _ => false)

/-- Modelled from the spec: the full ascending list of zero-based target end
positions achieving the best score ("ties are not broken — all tying columns
are returned").  Column `j` is reported as position `j - 1`, the zero-based
index in the target of the last consumed character (`-1` when no target
character is consumed). -/
def positionsList (mode : Mode) (q t : List Nat) : List Int :=
  ((eligCols mode t.length).filter (posElig mode q t)).map (fun (j : Nat) => (j : Int) - 1)

/-- Modelled from the spec: one invocation of the score engine at trial
threshold `kc` (spec section 4.1): a definite answer — the exact best score if
it is at most `kc`, otherwise "none". -/
def engineAtK (mode : Mode) (q t : List Nat) (kc : Nat) : Option Nat :=
  if modeBestScore mode q t ≤ kc then some (modeBestScore mode q t) else none

/-- Modelled from the spec: the Ukkonen threshold-growth loop of spec section
4.2 — repeatedly invoke the engine with a monotonically increasing threshold
until a score is found.  The growth schedule (here `kc ↦ 2·kc + 1`, strictly
increasing) is an open performance choice per spec section 9; the fuel bounds
the number of growth rounds and is proven sufficient below. -/
def ukkonenLoop (mode : Mode) (q t : List Nat) : Nat → Nat → Option Nat
  | 0, _ => none
  | fuel + 1, kc =>
      match engineAtK mode q t kc with
      | some s => some s
      | none => ukkonenLoop mode q t fuel (2 * kc + 1)

/-- Modelled from the spec: the initial threshold guess, proportional to the
length difference of the sequences (a lower bound of the NW distance, spec
section 4.2). -/
def initialK (q t : List Nat) : Nat :=
  (q.length - t.length) + (t.length - q.length)

/-- Modelled from the spec: the backward traceback walk of spec section 4.4,
with explicit fuel (the walk from cell `(i, j)` needs at most `i + j` steps).
From cell `(i, j)` choose, in the fixed priority order "diagonal match,
diagonal mismatch, horizontal, vertical", the predecessor consistent with the
recorded score difference; stop on a free edge (score 0 cells of a free leading
gap); free gaps are never emitted.  Operations are emitted in
start-of-query-to-end order: 0 match, 1 insertion to target (consumes a target
character), 2 insertion to query (consumes a query character), 3 mismatch. -/
def tbAux (mode : Mode) (q t : List Nat) : Nat → Nat → Nat → List Nat
  | 0, _, _ => []
  | _ + 1, 0, 0 => []
  | fuel + 1, 0, j + 1 =>
      if freeLeadQueryGap mode then [] else tbAux mode q t fuel 0 j ++ [1]
  | fuel + 1, i + 1, 0 =>
      if freeLeadTargetGap mode then [] else tbAux mode q t fuel i 0 ++ [2]
  | fuel + 1, i + 1, j + 1 =>
      if q.getD i 0 = t.getD j 0 ∧ colAt mode q t (j + 1) (i + 1) = colAt mode q t j i then
        tbAux mode q t fuel i j ++ [0]
      else if q.getD i 0 ≠ t.getD j 0 ∧ colAt mode q t (j + 1) (i + 1) = colAt mode q t j i + 1 then
        tbAux mode q t fuel i j ++ [3]
      else if colAt mode q t (j + 1) (i + 1) = colAt mode q t j (i + 1) + 1 then
        tbAux mode q t fuel (i + 1) j ++ [1]
      else
        tbAux mode q t fuel i (j + 1) ++ [2]

/-- The DP column index at which the reported alignment ends: one past the
first reported end position (`positions[0]`, per the header: "Alignment is
found for first position returned"). -/
def endColumn (ps : List Int) : Nat :=
  match ps with
  | [] => 0
  | p :: _ => (p + 1).toNat

/-- Modelled from the spec: the alignment reconstructed for the first reported
end position, walking back from the bottom row of that end column. -/
def traceback (mode : Mode) (q t : List Nat) : List Nat :=
  tbAux mode q t (q.length + endColumn (positionsList mode q t)) q.length
    (endColumn (positionsList mode q t))

/-- The outputs of `myersCalcEditDistance`: status code, best score (`-1`
sentinel when no score ≤ k exists), the positions buffer (`none` models a NULL
pointer), its length, the alignment buffer (`none` models NULL), and its
length. -/
structure MyersOutput where
  status : Nat
  bestScore : Int
  positions : Option (List Int)
  numPositions : Nat
  alignment : Option (List Nat)
  alignmentLength : Nat
  deriving DecidableEq

/-- Modelled from the spec: the whole missing body of `myersCalcEditDistance`
(its contract is the doc comment in `myers.h` plus spec sections 4.1, 4.2, 4.4,
6 and 7).  A non-negative caller threshold `k` invokes the engine exactly once;
a negative `k` runs the Ukkonen growth loop.  When no score ≤ k exists the
result is the normal OK outcome with score `-1` and NULL buffers; otherwise the
best score, all tying end positions in ascending order, and (on request) the
alignment for the first position are returned.  `alphabetLength` only fixes the
Peq-mask layout of the bit-parallel engine and does not affect the abstract
result, so it is an unused parameter here. -/
def myersCalcEditDistance (query target : List Nat) (alphabetLength : Nat) (k : Int)
    (mode : Mode) (findAlignment : Bool) : MyersOutput :=
  let found : Option Nat :=
    if 0 ≤ k then
      if (modeBestScore mode query target : Int) ≤ k then some (modeBestScore mode query target)
      else none
    else ukkonenLoop mode query target (max query.length target.length + 2) (initialK query target)
  match found with
  | none =>
      { status := MYERS_STATUS_OK, bestScore := -1, positions := none, numPositions := 0,
        alignment := none, alignmentLength := 0 }
  | some s =>
      let ps := positionsList mode query target
      let al : Option (List Nat) :=
        if findAlignment then some (traceback mode query target) else none
      { status := MYERS_STATUS_OK, bestScore := (s : Int), positions := some ps,
        numPositions := ps.length, alignment := al, alignmentLength := (al.getD []).length }

/-- Reference for claim C1, following the claim's words: the classic full
dynamic-programming Levenshtein matrix with match 0, mismatch 1, insertion 1,
deletion 1, built row by row over the query (edges `D[0][j] = j`,
`D[i][0] = i`).  `levRowNext q t i r` is row `i + 1` given row `i = r`. -/
def levRowNext (q t : List Nat) (i : Nat) (r : Nat → Nat) : Nat → Nat
  | 0 => i + 1
  | j + 1 =>
      min (r j + (if q.getD i 0 = t.getD j 0 then 0 else 1))
        (min (levRowNext q t i r j + 1) (r (j + 1) + 1))

/-- Row `i` of the classic full Levenshtein DP matrix; `levRow q t i j` is the
edit distance between the first `i` characters of `q` and the first `j`
characters of `t`. -/
def levRow (q t : List Nat) : Nat → Nat → Nat
  | 0 => fun j => j
  | i + 1 => levRowNext q t i (levRow q t i)

/-- Replay semantics for claim C7, following the claim's words: starting with
the query pointer at `qi` and the target pointer at `tj`, process the operation
sequence, advancing the query pointer on match/mismatch/insertion-to-query and
the target pointer on match/mismatch/insertion-to-target, requiring the
compared characters to be equal on a match and different on a mismatch,
charging cost 1 for each mismatch and insertion and 0 for each match.  Returns
`(total cost, final query pointer, final target pointer)`, or `none` when an
operation is inconsistent with the sequences or runs off their ends. -/
def replayFrom (q t : List Nat) : Nat → Nat → List Nat → Option (Nat × Nat × Nat)
  | qi, tj, [] => some (0, qi, tj)
  | qi, tj, op :: ops =>
      if op = 0 then
        if qi < q.length ∧ tj < t.length ∧ q.getD qi 0 = t.getD tj 0 then
          replayFrom q t (qi + 1) (tj + 1) ops
        else none
      else if op = 3 then
        if qi < q.length ∧ tj < t.length ∧ q.getD qi 0 ≠ t.getD tj 0 then
          (replayFrom q t (qi + 1) (tj + 1) ops).map (fun r => (r.1 + 1, r.2))
        else none
      else if op = 1 then
        if tj < t.length then
          (replayFrom q t qi (tj + 1) ops).map (fun r => (r.1 + 1, r.2))
        else none
      else if op = 2 then
        if qi < q.length then
          (replayFrom q t (qi + 1) tj ops).map (fun r => (r.1 + 1, r.2))
        else none
      else none

/-- The CIGAR opcode class of an edit operation, per spec section 4.5 and the
header: match (0) and mismatch (3) share the class `M`; insertion to target (1)
maps to `I`; insertion to query (2) maps to `D`. -/
def cigarOpChar (op : Nat) : Char :=
  if op = 1 then 'I' else if op = 2 then 'D' else 'M'

/-- Decimal digit character for a single digit value. -/
def digitChar (d : Nat) : Char :=
  match d with
  | 0 => '0'
  | 1 => '1'
  | 2 => '2'
  | 3 => '3'
  | 4 => '4'
  | 5 => '5'
  | 6 => '6'
  | 7 => '7'
  | 8 => '8'
  | _ => '9'

/-- Decimal digits of `n`, most significant first, computed with explicit fuel
(`n < fuel` suffices). -/
def toDecimalAux : Nat → Nat → List Char
  | 0, _ => []
  | fuel + 1, n =>
      if n < 10 then [digitChar n]
      else toDecimalAux fuel (n / 10) ++ [digitChar (n % 10)]

/-- Decimal representation of `n`, most significant digit first. -/
def toDecimal (n : Nat) : List Char :=
  toDecimalAux (n + 1) n

/-- Modelled from the spec: the run-length grouping of spec section 4.5 —
consecutive operations of the same CIGAR class are merged into one
`(run length, class character)` run. -/
def cigarRuns : List Nat → List (Nat × Char)
  | [] => []
  | op :: ops =>
      match cigarRuns ops with
      | [] => [(1, cigarOpChar op)]
      | (cnt, ch) :: rs =>
          if cigarOpChar op = ch then (cnt + 1, ch) :: rs
          else (1, cigarOpChar op) :: (cnt, ch) :: rs

/-- The encoded text of one run: decimal run length followed by the class
character. -/
def encodeRun (r : Nat × Char) : List Char :=
  toDecimal r.1 ++ [r.2]

/-- Modelled from the spec: the character content of the CIGAR string built
from an alignment sequence (spec section 4.5); the C implementation appends a
null terminator after these characters. -/
def cigarChars (al : List Nat) : List Char :=
  (cigarRuns al).flatMap encodeRun

/-- Modelled from the spec: the missing body of `edlibAlignmentToCigar` — the
run-length CIGAR encoder of spec section 4.5.  Returns the status code and the
characters of the null-terminated output string. -/
def edlibAlignmentToCigar (alignment : List Nat) : Nat × List Char :=
  (MYERS_STATUS_OK, cigarChars alignment)

/-- Whether a character is a decimal digit. -/
def isDigitCh (c : Char) : Bool :=
  decide (48 ≤ c.toNat) && decide (c.toNat ≤ 57)

/-- Numeric value of a digit character. -/
def digitVal (c : Char) : Nat :=
  c.toNat - 48

/-- Consume a maximal run of decimal digits, folding them into the
accumulator; returns the parsed value and the unconsumed remainder. -/
def parseNatAux : List Char → Nat → Nat × List Char
  | [], acc => (acc, [])
  | c :: cs, acc =>
      if isDigitCh c then parseNatAux cs (acc * 10 + digitVal c)
      else (acc, c :: cs)

/-- Decode a CIGAR character list by expanding each `<run length><class>` run
into `run length` copies of the class character; fuel bounds the number of
runs.  Fails on text that does not consist of such runs. -/
def decodeAux : Nat → List Char → Option (List Char)
  | _, [] => some []
  | 0, _ :: _ => none
  | fuel + 1, c :: cs =>
      if isDigitCh c then
        match parseNatAux cs (digitVal c) with
        | (len, rest) =>
            match rest with
            | [] => none
            | op :: rest2 => (decodeAux fuel rest2).map (fun tail => List.replicate len op ++ tail)
      else none

/-- Decode a CIGAR character list into the expanded sequence of class
characters. -/
def decodeCigar (cs : List Char) : Option (List Char) :=
  decodeAux (cs.length + 1) cs

/-! ### Basic lemmas on `minL` and the DP columns -/

theorem minL_le {l : List Nat} {x : Nat} (hx : x ∈ l) : minL l ≤ x := by
  induction l with
  | nil => cases hx
  | cons a tail ih =>
    cases tail with
    | nil =>
      rcases List.mem_singleton.mp hx with rfl
      exact le_refl (minL [x])
    | cons b xs =>
      rcases List.mem_cons.mp hx with rfl | hx2
      · exact min_le_left _ _
      · exact le_trans (min_le_right _ _) (ih hx2)

theorem minL_mem {l : List Nat} (h : l ≠ []) : minL l ∈ l := by
  induction l with
  | nil => exact absurd rfl h
  | cons a tail ih =>
    cases tail with
    | nil => exact List.mem_singleton.mpr rfl
    | cons b xs =>
      rcases le_total a (minL (b :: xs)) with hle | hle
      · have : minL (a :: b :: xs) = a := min_eq_left hle
        rw [this]; exact List.mem_cons_self a _
      · have : minL (a :: b :: xs) = minL (b :: xs) := min_eq_right hle
        rw [this]; exact List.mem_cons_of_mem a (ih (by simp))

theorem take_reverse_succ {t : List Nat} {j : Nat} (h : j < t.length) :
    (t.take (j + 1)).reverse = t.getD j 0 :: (t.take j).reverse := by
  rw [List.take_succ]
  simp [List.getElem?_eq_getElem h, List.getD_eq_getElem?_getD]

theorem colAt_zero (mode : Mode) (q t : List Nat) (i : Nat) :
    colAt mode q t 0 i = colInit (freeLeadTargetGap mode) i := rfl

theorem colAt_succ (mode : Mode) (q t : List Nat) {j : Nat} (h : j < t.length) :
    colAt mode q t (j + 1) =
      colNext q (freeLeadQueryGap mode) (t.getD j 0) (colAt mode q t j) := by
  unfold colAt
  rw [take_reverse_succ h]
  rfl

theorem colAt_row0_of_free (mode : Mode) (q t : List Nat)
    (hf : freeLeadQueryGap mode = true) {j : Nat} (hj : j ≤ t.length) :
    colAt mode q t j 0 = 0 := by
  induction j with
  | zero => rw [colAt_zero]; simp [colInit]
  | succ j ih =>
    rw [colAt_succ mode q t (Nat.lt_of_succ_le hj)]
    simp [colNext, hf]

theorem colAt_row0_of_charged (mode : Mode) (q t : List Nat)
    (hf : freeLeadQueryGap mode = false) {j : Nat} (hj : j ≤ t.length) :
    colAt mode q t j 0 = j := by
  induction j with
  | zero => rw [colAt_zero]; simp [colInit]
  | succ j ih =>
    rw [colAt_succ mode q t (Nat.lt_of_succ_le hj)]
    simp [colNext, hf, ih (Nat.le_of_succ_le hj)]

theorem colAt_rec (mode : Mode) (q t : List Nat) {i j : Nat} (hj : j < t.length) :
    colAt mode q t (j + 1) (i + 1) =
      min (colAt mode q t j i + (if q.getD i 0 = t.getD j 0 then 0 else 1))
        (min (colAt mode q t j (i + 1) + 1) (colAt mode q t (j + 1) i + 1)) := by
  rw [colAt_succ mode q t hj]
  rw [colNext]

/-! ### The classic matrix reference and the engine/reference equivalence (claim C1 core) -/

theorem levRow_zero (q t : List Nat) (j : Nat) : levRow q t 0 j = j := rfl

theorem levRow_i_zero (q t : List Nat) (i : Nat) : levRow q t i 0 = i := by
  cases i with
  | zero => rfl
  | succ i => rfl

theorem levRow_rec (q t : List Nat) (i j : Nat) :
    levRow q t (i + 1) (j + 1) =
      min (levRow q t i j + (if q.getD i 0 = t.getD j 0 then 0 else 1))
        (min (levRow q t (i + 1) j + 1) (levRow q t i (j + 1) + 1)) := by
  show levRowNext q t i (levRow q t i) (j + 1) = _
  rw [levRowNext]
  rfl

theorem colAt_eq_levRow (mode : Mode) (q t : List Nat)
    (hQ : freeLeadQueryGap mode = false) (hT : freeLeadTargetGap mode = false) :
    ∀ j, j ≤ t.length → ∀ i, colAt mode q t j i = levRow q t i j := by
  intro j
  induction j with
  | zero =>
    intro _ i
    rw [colAt_zero, levRow_i_zero]
    simp [colInit, hT]
  | succ j ih =>
    intro hj i
    induction i with
    | zero =>
      rw [colAt_row0_of_charged mode q t hQ hj, levRow_zero]
    | succ i ih2 =>
      rw [colAt_rec mode q t (Nat.lt_of_succ_le hj), levRow_rec,
        ih (Nat.le_of_succ_le hj) i, ih (Nat.le_of_succ_le hj) (i + 1), ih2]

theorem modeBestScore_NW_eq (q t : List Nat) :
    modeBestScore .NW q t = levRow q t q.length t.length := by
  show minL [bottomAt .NW q t t.length] = _
  show bottomAt .NW q t t.length = _
  exact colAt_eq_levRow .NW q t rfl rfl t.length (le_refl _) q.length

/-! ### Score bounds and mode comparison -/

theorem colAt_le_max (mode : Mode) (q t : List Nat) :
    ∀ j, j ≤ t.length → ∀ i, colAt mode q t j i ≤ max i j := by
  intro j
  induction j with
  | zero =>
    intro _ i
    rw [colAt_zero]
    simp only [colInit]
    split <;> omega
  | succ j ih =>
    intro hj i
    induction i with
    | zero =>
      cases hQ : freeLeadQueryGap mode with
      | true => rw [colAt_row0_of_free mode q t hQ hj]; omega
      | false => rw [colAt_row0_of_charged mode q t hQ hj]; omega
    | succ i ih2 =>
      rw [colAt_rec mode q t (Nat.lt_of_succ_le hj)]
      have h1 := ih (Nat.le_of_succ_le hj) i
      split <;> omega

theorem colAt_le_colAt_NW (mode : Mode) (q t : List Nat) :
    ∀ j, j ≤ t.length → ∀ i, colAt mode q t j i ≤ colAt .NW q t j i := by
  intro j
  induction j with
  | zero =>
    intro _ i
    rw [colAt_zero, colAt_zero]
    cases mode <;> simp [colInit, freeLeadTargetGap]
  | succ j ih =>
    intro hj i
    induction i with
    | zero =>
      rw [colAt_row0_of_charged .NW q t rfl hj]
      cases hQ : freeLeadQueryGap mode with
      | true => rw [colAt_row0_of_free mode q t hQ hj]; omega
      | false => rw [colAt_row0_of_charged mode q t hQ hj]
    | succ i ih2 =>
      rw [colAt_rec mode q t (Nat.lt_of_succ_le hj), colAt_rec .NW q t (Nat.lt_of_succ_le hj)]
      have h1 := ih (Nat.le_of_succ_le hj) i
      have h2 := ih (Nat.le_of_succ_le hj) (i + 1)
      split <;> omega

theorem mem_eligCols_self (mode : Mode) (n : Nat) : n ∈ eligCols mode n := by
  cases mode with
  | NW => exact List.mem_singleton.mpr rfl
  | HW | SHW | OV =>
    by_cases hn : n = 0
    · subst hn; simp [eligCols]
    · simp [eligCols, hn, List.mem_range'_1]; omega

theorem mem_eligCols_le {mode : Mode} {n j : Nat} (h : j ∈ eligCols mode n) : j ≤ n := by
  cases mode with
  | NW => rw [List.mem_singleton.mp h]
  | HW | SHW | OV =>
    by_cases hn : n = 0
    · subst hn; simp [eligCols] at h; omega
    · simp [eligCols, hn, List.mem_range'_1] at h; omega

theorem modeBestScore_le_bottom (mode : Mode) (q t : List Nat) {j : Nat}
    (hj : j ∈ eligCols mode t.length) :
    modeBestScore mode q t ≤ bottomAt mode q t j := by
  have hmem : bottomAt mode q t j ∈ (eligCols mode t.length).map (bottomAt mode q t) :=
    List.mem_map_of_mem _ hj
  cases mode with
  | OV => exact le_trans (min_le_left _ _) (minL_le hmem)
  | NW | HW | SHW => exact minL_le hmem

theorem modeBestScore_le_max (mode : Mode) (q t : List Nat) :
    modeBestScore mode q t ≤ max q.length t.length := by
  refine le_trans (modeBestScore_le_bottom mode q t (mem_eligCols_self mode t.length)) ?_
  exact colAt_le_max mode q t t.length (le_refl _) q.length

theorem modeBestScore_le_NW (mode : Mode) (q t : List Nat) :
    modeBestScore mode q t ≤ modeBestScore .NW q t := by
  have h2 : modeBestScore .NW q t = colAt .NW q t t.length q.length := rfl
  rw [h2]
  refine le_trans (modeBestScore_le_bottom mode q t (mem_eligCols_self mode t.length)) ?_
  exact colAt_le_colAt_NW mode q t t.length (le_refl _) q.length

/-! ### The Ukkonen growth loop and the shape of the top-level result -/

theorem ukkonenLoop_finds (mode : Mode) (q t : List Nat) :
    ∀ fuel kc, modeBestScore mode q t ≤ kc + fuel →
      ukkonenLoop mode q t (fuel + 1) kc = some (modeBestScore mode q t) := by
  intro fuel
  induction fuel with
  | zero =>
    intro kc h
    have hk : modeBestScore mode q t ≤ kc := by omega
    simp [ukkonenLoop, engineAtK, hk]
  | succ fuel ih =>
    intro kc h
    by_cases hk : modeBestScore mode q t ≤ kc
    · simp [ukkonenLoop, engineAtK, hk]
    · have hnext : modeBestScore mode q t ≤ (2 * kc + 1) + fuel := by omega
      simp only [ukkonenLoop, engineAtK, hk, if_false, if_neg hk]
      exact ih (2 * kc + 1) hnext

theorem myers_found (q t : List Nat) (a : Nat) (k : Int) (mode : Mode) (f : Bool)
    (h : k < 0 ∨ (modeBestScore mode q t : Int) ≤ k) :
    myersCalcEditDistance q t a k mode f =
      { status := MYERS_STATUS_OK, bestScore := (modeBestScore mode q t : Int),
        positions := some (positionsList mode q t),
        numPositions := (positionsList mode q t).length,
        alignment := if f then some (traceback mode q t) else none,
        alignmentLength :=
          ((if f then some (traceback mode q t) else none).getD []).length } := by
  unfold myersCalcEditDistance
  by_cases hk0 : 0 ≤ k
  · have hle : (modeBestScore mode q t : Int) ≤ k := by
      rcases h with hneg | hle
      · omega
      · exact hle
    simp [hk0, hle]
  · have hloop : ukkonenLoop mode q t (max q.length t.length + 2) (initialK q t) =
        some (modeBestScore mode q t) := by
      have hb := modeBestScore_le_max mode q t
      exact ukkonenLoop_finds mode q t (max q.length t.length + 1) (initialK q t) (by omega)
    simp [hk0, hloop]

theorem myers_notfound (q t : List Nat) (a : Nat) (k : Int) (mode : Mode) (f : Bool)
    (h0 : 0 ≤ k) (h1 : k < (modeBestScore mode q t : Int)) :
    myersCalcEditDistance q t a k mode f =
      { status := MYERS_STATUS_OK, bestScore := -1, positions := none, numPositions := 0,
        alignment := none, alignmentLength := 0 } := by
  unfold myersCalcEditDistance
  have hgt : ¬ (modeBestScore mode q t : Int) ≤ k := by omega
  simp [h0, hgt]

/-! ### Properties of the reported positions -/

theorem eligCols_pairwise (mode : Mode) (n : Nat) :
    List.Pairwise (· < ·) (eligCols mode n) := by
  cases mode with
  | NW => simp [eligCols]
  | HW | SHW | OV =>
    by_cases hn : n = 0
    · subst hn; simp [eligCols]
    · simp only [eligCols, hn, if_false, if_neg hn]
      exact List.pairwise_lt_range' 1 n

theorem positionsList_pairwise (mode : Mode) (q t : List Nat) :
    List.Pairwise (· < ·) (positionsList mode q t) := by
  unfold positionsList
  refine List.pairwise_map.mpr ?_
  exact ((eligCols_pairwise mode t.length).filter _).imp (fun h => by omega)

theorem posElig_of_bottom {mode : Mode} {q t : List Nat} {j : Nat}
    (hb : bottomAt mode q t j = modeBestScore mode q t) : posElig mode q t j = true := by
  unfold posElig
  simp [hb]

theorem bottom_of_posElig {mode : Mode} {q t : List Nat} {j : Nat} (hm : mode ≠ Mode.OV)
    (h : posElig mode q t j = true) : bottomAt mode q t j = modeBestScore mode q t := by
  unfold posElig at h
  cases mode with
  | OV => exact absurd rfl hm
  | NW | HW | SHW => simpa using h

theorem exists_posElig (mode : Mode) (q t : List Nat) :
    ∃ j ∈ eligCols mode t.length, posElig mode q t j = true := by
  have hne : (eligCols mode t.length).map (bottomAt mode q t) ≠ [] :=
    List.ne_nil_of_mem (List.mem_map_of_mem _ (mem_eligCols_self mode t.length))
  obtain ⟨j, hj, hval⟩ := List.mem_map.mp (minL_mem hne)
  cases mode with
  | NW | HW | SHW =>
    exact ⟨j, hj, posElig_of_bottom (by rw [hval]; rfl)⟩
  | OV =>
    by_cases hcmp : minL ((eligCols .OV t.length).map (bottomAt .OV q t)) ≤ lastColMin .OV q t
    · refine ⟨j, hj, posElig_of_bottom ?_⟩
      show bottomAt .OV q t j =
        min (minL ((eligCols .OV t.length).map (bottomAt .OV q t))) (lastColMin .OV q t)
      rw [min_eq_left hcmp, hval]
    · refine ⟨t.length, mem_eligCols_self .OV t.length, ?_⟩
      unfold posElig
      have hbest : modeBestScore .OV q t = lastColMin .OV q t := by
        show min _ _ = _
        omega
      simp [hbest]

theorem mem_positionsList {mode : Mode} {q t : List Nat} {j : Nat}
    (hj : j ∈ eligCols mode t.length) (he : posElig mode q t j = true) :
    ((j : Int) - 1) ∈ positionsList mode q t := by
  unfold positionsList
  exact List.mem_map_of_mem (fun (j : Nat) => (j : Int) - 1) (List.mem_filter.mpr ⟨hj, he⟩)

theorem positionsList_ne_nil (mode : Mode) (q t : List Nat) :
    positionsList mode q t ≠ [] := by
  obtain ⟨j, hj, he⟩ := exists_posElig mode q t
  exact List.ne_nil_of_mem (mem_positionsList hj he)

theorem positionsList_mem_inv {mode : Mode} {q t : List Nat} {p : Int}
    (hp : p ∈ positionsList mode q t) :
    ∃ j, j ∈ eligCols mode t.length ∧ posElig mode q t j = true ∧ p = (j : Int) - 1 := by
  unfold positionsList at hp
  rw [List.mem_map] at hp
  obtain ⟨j, hj, hval⟩ := hp
  rw [List.mem_filter] at hj
  exact ⟨j, hj.1, hj.2, hval.symm⟩

theorem positionsList_head (mode : Mode) (q t : List Nat) :
    ∃ j rest, j ∈ eligCols mode t.length ∧ posElig mode q t j = true ∧
      positionsList mode q t = ((j : Int) - 1) :: rest := by
  cases hL : positionsList mode q t with
  | nil => exact absurd hL (positionsList_ne_nil mode q t)
  | cons p rest =>
    have hp : p ∈ positionsList mode q t := by rw [hL]; exact List.mem_cons_self p rest
    obtain ⟨j, hj, he, hval⟩ := positionsList_mem_inv hp
    exact ⟨j, rest, hj, he, by rw [hval]⟩

/-! ### Replay of the traceback: the walk reproduces score, end column and query span -/

theorem colAt_zero_zero (mode : Mode) (q t : List Nat) : colAt mode q t 0 0 = 0 := by
  rw [colAt_zero]
  simp [colInit]

theorem getD_of_lt {l : List Nat} {i : Nat} (h : i < l.length) : l.getD i 0 = l[i] := by
  rw [List.getD_eq_getElem?_getD, List.getElem?_eq_getElem h]
  rfl

theorem replayFrom_cons_zero (q t : List Nat) (qi tj : Nat) (ops : List Nat) :
    replayFrom q t qi tj (0 :: ops) =
      if qi < q.length ∧ tj < t.length ∧ q.getD qi 0 = t.getD tj 0 then
        replayFrom q t (qi + 1) (tj + 1) ops
      else none := rfl

theorem replayFrom_cons_three (q t : List Nat) (qi tj : Nat) (ops : List Nat) :
    replayFrom q t qi tj (3 :: ops) =
      if qi < q.length ∧ tj < t.length ∧ q.getD qi 0 ≠ t.getD tj 0 then
        (replayFrom q t (qi + 1) (tj + 1) ops).map (fun r => (r.1 + 1, r.2))
      else none := rfl

theorem replayFrom_cons_one (q t : List Nat) (qi tj : Nat) (ops : List Nat) :
    replayFrom q t qi tj (1 :: ops) =
      if tj < t.length then
        (replayFrom q t qi (tj + 1) ops).map (fun r => (r.1 + 1, r.2))
      else none := rfl

theorem replayFrom_cons_two (q t : List Nat) (qi tj : Nat) (ops : List Nat) :
    replayFrom q t qi tj (2 :: ops) =
      if qi < q.length then
        (replayFrom q t (qi + 1) tj ops).map (fun r => (r.1 + 1, r.2))
      else none := rfl

theorem replayFrom_cons_other {op : Nat} (q t : List Nat) (qi tj : Nat) (ops : List Nat)
    (h0 : op ≠ 0) (h3 : op ≠ 3) (hI : op ≠ 1) (hD : op ≠ 2) :
    replayFrom q t qi tj (op :: ops) = none := by
  simp [replayFrom, h0, h3, hI, hD]

theorem replay_one_match {q t : List Nat} {i j : Nat} (hi : i < q.length) (hj : j < t.length)
    (hc : q.getD i 0 = t.getD j 0) : replayFrom q t i j [0] = some (0, i + 1, j + 1) := by
  rw [replayFrom_cons_zero, if_pos ⟨hi, hj, hc⟩]
  rfl

theorem replay_one_mismatch {q t : List Nat} {i j : Nat} (hi : i < q.length) (hj : j < t.length)
    (hc : q.getD i 0 ≠ t.getD j 0) : replayFrom q t i j [3] = some (1, i + 1, j + 1) := by
  rw [replayFrom_cons_three, if_pos ⟨hi, hj, hc⟩]
  rfl

theorem replay_one_instarget {q t : List Nat} {j : Nat} (i : Nat) (hj : j < t.length) :
    replayFrom q t i j [1] = some (1, i, j + 1) := by
  rw [replayFrom_cons_one, if_pos hj]
  rfl

theorem replay_one_insquery {q t : List Nat} {i : Nat} (j : Nat) (hi : i < q.length) :
    replayFrom q t i j [2] = some (1, i + 1, j) := by
  rw [replayFrom_cons_two, if_pos hi]
  rfl

theorem replayFrom_append (q t : List Nat) :
    ∀ l1 l2 qi tj, replayFrom q t qi tj (l1 ++ l2) =
      (replayFrom q t qi tj l1).bind
        (fun r => (replayFrom q t r.2.1 r.2.2 l2).map (fun s => (r.1 + s.1, s.2))) := by
  intro l1
  induction l1 with
  | nil =>
    intro l2 qi tj
    cases h : replayFrom q t qi tj l2 <;> simp [replayFrom, h]
  | cons op ops ih =>
    intro l2 qi tj
    rw [List.cons_append]
    have hop : op = 0 ∨ op = 3 ∨ op = 1 ∨ op = 2 ∨
        (op ≠ 0 ∧ op ≠ 3 ∧ op ≠ 1 ∧ op ≠ 2) := by omega
    rcases hop with rfl | rfl | rfl | rfl | ⟨h0, h3, hI, hD⟩
    · rw [replayFrom_cons_zero, replayFrom_cons_zero]
      by_cases hg : qi < q.length ∧ tj < t.length ∧ q.getD qi 0 = t.getD tj 0
      · rw [if_pos hg, if_pos hg]
        exact ih l2 (qi + 1) (tj + 1)
      · rw [if_neg hg, if_neg hg]
        rfl
    · rw [replayFrom_cons_three, replayFrom_cons_three]
      by_cases hg : qi < q.length ∧ tj < t.length ∧ q.getD qi 0 ≠ t.getD tj 0
      · rw [if_pos hg, if_pos hg, ih l2 (qi + 1) (tj + 1)]
        cases h1 : replayFrom q t (qi + 1) (tj + 1) ops with
        | none => simp
        | some r =>
          cases h2 : replayFrom q t r.2.1 r.2.2 l2 with
          | none => simp [h2]
          | some s =>
            simp [h2, Prod.ext_iff]
            omega
      · rw [if_neg hg, if_neg hg]
        rfl
    · rw [replayFrom_cons_one, replayFrom_cons_one]
      by_cases hg : tj < t.length
      · rw [if_pos hg, if_pos hg, ih l2 qi (tj + 1)]
        cases h1 : replayFrom q t qi (tj + 1) ops with
        | none => simp
        | some r =>
          cases h2 : replayFrom q t r.2.1 r.2.2 l2 with
          | none => simp [h2]
          | some s =>
            simp [h2, Prod.ext_iff]
            omega
      · rw [if_neg hg, if_neg hg]
        rfl
    · rw [replayFrom_cons_two, replayFrom_cons_two]
      by_cases hg : qi < q.length
      · rw [if_pos hg, if_pos hg, ih l2 (qi + 1) tj]
        cases h1 : replayFrom q t (qi + 1) tj ops with
        | none => simp
        | some r =>
          cases h2 : replayFrom q t r.2.1 r.2.2 l2 with
          | none => simp [h2]
          | some s =>
            simp [h2, Prod.ext_iff]
            omega
      · rw [if_neg hg, if_neg hg]
        rfl
    · rw [replayFrom_cons_other q t qi tj (ops ++ l2) h0 h3 hI hD,
        replayFrom_cons_other q t qi tj ops h0 h3 hI hD]
      rfl

theorem colAt_rec_cases (mode : Mode) (q t : List Nat) {i j : Nat} (hj : j < t.length) :
    colAt mode q t (j + 1) (i + 1) =
        colAt mode q t j i + (if q.getD i 0 = t.getD j 0 then 0 else 1) ∨
      colAt mode q t (j + 1) (i + 1) = colAt mode q t j (i + 1) + 1 ∨
      colAt mode q t (j + 1) (i + 1) = colAt mode q t (j + 1) i + 1 := by
  rw [colAt_rec mode q t hj]
  split <;> omega

theorem tb_replay (mode : Mode) (q t : List Nat) :
    ∀ fuel i j, i + j ≤ fuel → i ≤ q.length → j ≤ t.length →
      ∃ i0 j0,
        ((i0 = 0 ∧ (freeLeadQueryGap mode = true ∨ j0 = 0)) ∨
          (j0 = 0 ∧ freeLeadTargetGap mode = true)) ∧
        replayFrom q t i0 j0 (tbAux mode q t fuel i j) = some (colAt mode q t j i, i, j) := by
  intro fuel
  induction fuel with
  | zero =>
    intro i j hf hi hj
    have hij : i = 0 ∧ j = 0 := by omega
    rcases hij with ⟨rfl, rfl⟩
    exact ⟨0, 0, Or.inl ⟨rfl, Or.inr rfl⟩,
      by simp [tbAux, replayFrom, colAt_zero_zero mode q t]⟩
  | succ fuel ih =>
    intro i j hf hi hj
    rcases i with _ | i <;> rcases j with _ | j
    · exact ⟨0, 0, Or.inl ⟨rfl, Or.inr rfl⟩,
        by simp [tbAux, replayFrom, colAt_zero_zero mode q t]⟩
    · by_cases hQ : freeLeadQueryGap mode = true
      · refine ⟨0, j + 1, Or.inl ⟨rfl, Or.inl hQ⟩, ?_⟩
        rw [colAt_row0_of_free mode q t hQ hj]
        simp [tbAux, hQ, replayFrom]
      · have hQf : freeLeadQueryGap mode = false := by
          revert hQ; cases freeLeadQueryGap mode <;> simp
        obtain ⟨i0, j0, hstop, hrep⟩ := ih 0 j (by omega) (by omega) (by omega)
        refine ⟨i0, j0, hstop, ?_⟩
        have htb : tbAux mode q t (fuel + 1) 0 (j + 1) = tbAux mode q t fuel 0 j ++ [1] := by
          simp [tbAux, hQf]
        have hjlt : j < t.length := by omega
        rw [htb, replayFrom_append, hrep]
        simp only [Option.some_bind]
        rw [replay_one_instarget 0 hjlt]
        rw [colAt_row0_of_charged mode q t hQf hj, colAt_row0_of_charged mode q t hQf (by omega)]
        simp
    · by_cases hT : freeLeadTargetGap mode = true
      · refine ⟨i + 1, 0, Or.inr ⟨rfl, hT⟩, ?_⟩
        rw [colAt_zero]
        simp [tbAux, hT, replayFrom, colInit]
      · have hTf : freeLeadTargetGap mode = false := by
          revert hT; cases freeLeadTargetGap mode <;> simp
        obtain ⟨i0, j0, hstop, hrep⟩ := ih i 0 (by omega) (by omega) (by omega)
        refine ⟨i0, j0, hstop, ?_⟩
        have htb : tbAux mode q t (fuel + 1) (i + 1) 0 = tbAux mode q t fuel i 0 ++ [2] := by
          simp [tbAux, hTf]
        have hilt : i < q.length := by omega
        rw [htb, replayFrom_append, hrep]
        simp only [Option.some_bind]
        rw [replay_one_insquery 0 hilt]
        have e1 : colAt mode q t 0 (i + 1) = i + 1 := by rw [colAt_zero]; simp [colInit, hTf]
        have e2 : colAt mode q t 0 i = i := by rw [colAt_zero]; simp [colInit, hTf]
        rw [e1, e2]
        simp
    · have hjlt : j < t.length := by omega
      have hilt : i < q.length := by omega
      by_cases h1 : q.getD i 0 = t.getD j 0 ∧
          colAt mode q t (j + 1) (i + 1) = colAt mode q t j i
      · obtain ⟨i0, j0, hstop, hrep⟩ := ih i j (by omega) (by omega) (by omega)
        refine ⟨i0, j0, hstop, ?_⟩
        have htb : tbAux mode q t (fuel + 1) (i + 1) (j + 1) = tbAux mode q t fuel i j ++ [0] := by
          simp only [tbAux]
          rw [if_pos h1]
        rw [htb, replayFrom_append, hrep]
        simp only [Option.some_bind]
        rw [replay_one_match hilt hjlt h1.1]
        simp [h1.2]
      · by_cases h2 : q.getD i 0 ≠ t.getD j 0 ∧
            colAt mode q t (j + 1) (i + 1) = colAt mode q t j i + 1
        · obtain ⟨i0, j0, hstop, hrep⟩ := ih i j (by omega) (by omega) (by omega)
          refine ⟨i0, j0, hstop, ?_⟩
          have htb : tbAux mode q t (fuel + 1) (i + 1) (j + 1) =
              tbAux mode q t fuel i j ++ [3] := by
            simp only [tbAux]
            rw [if_neg h1, if_pos h2]
          rw [htb, replayFrom_append, hrep]
          simp only [Option.some_bind]
          rw [replay_one_mismatch hilt hjlt h2.1]
          simp [h2.2]
        · by_cases h3 : colAt mode q t (j + 1) (i + 1) = colAt mode q t j (i + 1) + 1
          · obtain ⟨i0, j0, hstop, hrep⟩ := ih (i + 1) j (by omega) (by omega) (by omega)
            refine ⟨i0, j0, hstop, ?_⟩
            have htb : tbAux mode q t (fuel + 1) (i + 1) (j + 1) =
                tbAux mode q t fuel (i + 1) j ++ [1] := by
              simp only [tbAux]
              rw [if_neg h1, if_neg h2, if_pos h3]
            rw [htb, replayFrom_append, hrep]
            simp only [Option.some_bind]
            rw [replay_one_instarget (i + 1) hjlt]
            simp [h3]
          · have h4 : colAt mode q t (j + 1) (i + 1) = colAt mode q t (j + 1) i + 1 := by
              rcases colAt_rec_cases mode q t hjlt (i := i) with hA | hB | hC
              · by_cases hch : q.getD i 0 = t.getD j 0
                · rw [if_pos hch] at hA
                  exact absurd ⟨hch, by omega⟩ h1
                · rw [if_neg hch] at hA
                  exact absurd ⟨hch, hA⟩ h2
              · exact absurd hB h3
              · exact hC
            obtain ⟨i0, j0, hstop, hrep⟩ := ih i (j + 1) (by omega) (by omega) (by omega)
            refine ⟨i0, j0, hstop, ?_⟩
            have htb : tbAux mode q t (fuel + 1) (i + 1) (j + 1) =
                tbAux mode q t fuel i (j + 1) ++ [2] := by
              simp only [tbAux]
              rw [if_neg h1, if_neg h2, if_neg h3]
            rw [htb, replayFrom_append, hrep]
            simp only [Option.some_bind]
            rw [replay_one_insquery (j + 1) hilt]
            simp [h4]

/-! ### CIGAR: run-length encoding round-trip -/

theorem digitChar_isDigit {d : Nat} (h : d < 10) : isDigitCh (digitChar d) = true := by
  interval_cases d <;> rfl

theorem digitVal_digitChar {d : Nat} (h : d < 10) : digitVal (digitChar d) = d := by
  interval_cases d <;> rfl

theorem toDecimalAux_ne_nil : ∀ fuel n, n < fuel → toDecimalAux fuel n ≠ [] := by
  intro fuel n h
  cases fuel with
  | zero => omega
  | succ fuel =>
    by_cases hn : n < 10
    · simp [toDecimalAux, hn]
    · simp [toDecimalAux, hn]

theorem toDecimalAux_digits : ∀ fuel n, ∀ c ∈ toDecimalAux fuel n, isDigitCh c = true := by
  intro fuel
  induction fuel with
  | zero => intro n c hc; simp [toDecimalAux] at hc
  | succ fuel ih =>
    intro n c hc
    by_cases hn : n < 10
    · simp [toDecimalAux, hn] at hc
      rw [hc]
      exact digitChar_isDigit hn
    · simp only [toDecimalAux, if_neg hn] at hc
      rcases List.mem_append.mp hc with h1 | h2
      · exact ih (n / 10) c h1
      · rw [List.mem_singleton.mp h2]
        exact digitChar_isDigit (by omega)

theorem parseNatAux_cons (c : Char) (cs : List Char) (acc : Nat) :
    parseNatAux (c :: cs) acc =
      if isDigitCh c then parseNatAux cs (acc * 10 + digitVal c) else (acc, c :: cs) := rfl

theorem parseNatAux_toDecimalAux :
    ∀ fuel n rest acc, n < fuel →
      parseNatAux (toDecimalAux fuel n ++ rest) acc =
        parseNatAux rest (acc * 10 ^ (toDecimalAux fuel n).length + n) := by
  intro fuel
  induction fuel with
  | zero => intro n rest acc h; omega
  | succ fuel ih =>
    intro n rest acc h
    by_cases hn : n < 10
    · simp only [toDecimalAux, if_pos hn, List.singleton_append, List.length_singleton]
      rw [parseNatAux_cons, if_pos (digitChar_isDigit hn), digitVal_digitChar hn]
      norm_num
    · simp only [toDecimalAux, if_neg hn, List.append_assoc, List.singleton_append,
        List.length_append, List.length_singleton]
      have hdiv : n / 10 < fuel := by
        have h1 : n / 10 < n := Nat.div_lt_self (by omega) (by omega)
        omega
      rw [ih (n / 10) (digitChar (n % 10) :: rest) acc hdiv]
      rw [parseNatAux_cons, if_pos (digitChar_isDigit (by omega)), digitVal_digitChar (by omega)]
      congr 1
      rw [pow_succ, ← mul_assoc]
      generalize acc * 10 ^ (toDecimalAux fuel (n / 10)).length = y
      omega

theorem decodeAux_cons (fuel : Nat) (c : Char) (cs : List Char) :
    decodeAux (fuel + 1) (c :: cs) =
      if isDigitCh c then
        match parseNatAux cs (digitVal c) with
        | (len, rest) =>
            match rest with
            | [] => none
            | op :: rest2 => (decodeAux fuel rest2).map (fun tail => List.replicate len op ++ tail)
      else none := rfl

theorem decodeAux_encodes :
    ∀ runs : List (Nat × Char), ∀ fuel, runs.length < fuel →
      (∀ r ∈ runs, 1 ≤ r.1) → (∀ r ∈ runs, isDigitCh r.2 = false) →
      decodeAux fuel (runs.flatMap encodeRun) =
        some (runs.flatMap (fun r => List.replicate r.1 r.2)) := by
  intro runs
  induction runs with
  | nil =>
    intro fuel _ _ _
    cases fuel <;> rfl
  | cons run rs ih =>
    intro fuel hf hpos hnd
    obtain ⟨fuel, rfl⟩ : ∃ f, fuel = f + 1 := ⟨fuel - 1, by omega⟩
    obtain ⟨cnt, ch⟩ := run
    have hne : toDecimal cnt ≠ [] := toDecimalAux_ne_nil (cnt + 1) cnt (by omega)
    obtain ⟨c, cs, hcs⟩ := List.exists_cons_of_ne_nil hne
    have hdigc : isDigitCh c = true := by
      refine toDecimalAux_digits (cnt + 1) cnt c ?_
      rw [show toDecimalAux (cnt + 1) cnt = toDecimal cnt from rfl, hcs]
      exact List.mem_cons_self c cs
    have hchnd : isDigitCh ch = false := hnd (cnt, ch) (List.mem_cons_self _ _)
    rw [List.flatMap_cons]
    have hshape : encodeRun (cnt, ch) ++ rs.flatMap encodeRun =
        c :: (cs ++ (ch :: rs.flatMap encodeRun)) := by
      show (toDecimal cnt ++ [ch]) ++ rs.flatMap encodeRun = _
      rw [hcs]
      simp
    rw [hshape, decodeAux_cons, if_pos hdigc]
    have hparse : parseNatAux (cs ++ (ch :: rs.flatMap encodeRun)) (digitVal c) =
        (cnt, ch :: rs.flatMap encodeRun) := by
      have h1 := parseNatAux_toDecimalAux (cnt + 1) cnt (ch :: rs.flatMap encodeRun) 0 (by omega)
      rw [show toDecimalAux (cnt + 1) cnt = toDecimal cnt from rfl, hcs, List.cons_append,
        parseNatAux_cons, if_pos hdigc] at h1
      rw [parseNatAux_cons, if_neg (by rw [hchnd]; exact Bool.false_ne_true)] at h1
      simpa using h1
    rw [hparse]
    show (decodeAux fuel (rs.flatMap encodeRun)).map
        (fun tail => List.replicate cnt ch ++ tail) = _
    rw [ih fuel (by simp at hf; omega)
      (fun r hr => hpos r (List.mem_cons_of_mem _ hr))
      (fun r hr => hnd r (List.mem_cons_of_mem _ hr))]
    simp

theorem cigarOpChar_cases (op : Nat) :
    cigarOpChar op = 'M' ∨ cigarOpChar op = 'I' ∨ cigarOpChar op = 'D' := by
  unfold cigarOpChar
  split
  · exact Or.inr (Or.inl rfl)
  · split
    · exact Or.inr (Or.inr rfl)
    · exact Or.inl rfl

theorem isDigitCh_cigarOpChar (op : Nat) : isDigitCh (cigarOpChar op) = false := by
  rcases cigarOpChar_cases op with h | h | h <;> rw [h] <;> rfl

theorem cigarRuns_pos : ∀ al : List Nat, ∀ r ∈ cigarRuns al, 1 ≤ r.1 := by
  intro al
  induction al with
  | nil => intro r hr; simp [cigarRuns] at hr
  | cons op ops ih =>
    intro r hr
    cases hruns : cigarRuns ops with
    | nil =>
      have hstep : cigarRuns (op :: ops) = [(1, cigarOpChar op)] := by
        simp only [cigarRuns]
        rw [hruns]
      rw [hstep] at hr
      rw [List.mem_singleton.mp hr]
    | cons run rs =>
      obtain ⟨cnt, ch⟩ := run
      have hstep : cigarRuns (op :: ops) =
          if cigarOpChar op = ch then (cnt + 1, ch) :: rs
          else (1, cigarOpChar op) :: (cnt, ch) :: rs := by
        simp only [cigarRuns]
        rw [hruns]
      rw [hstep] at hr
      by_cases hc : cigarOpChar op = ch
      · rw [if_pos hc] at hr
        rcases List.mem_cons.mp hr with rfl | hr2
        · omega
        · exact ih r (by rw [hruns]; exact List.mem_cons_of_mem _ hr2)
      · rw [if_neg hc] at hr
        rcases List.mem_cons.mp hr with rfl | hr2
        · omega
        · exact ih r (by rw [hruns]; exact hr2)

theorem cigarRuns_snd : ∀ al : List Nat, ∀ r ∈ cigarRuns al, ∃ op, r.2 = cigarOpChar op := by
  intro al
  induction al with
  | nil => intro r hr; simp [cigarRuns] at hr
  | cons op ops ih =>
    intro r hr
    cases hruns : cigarRuns ops with
    | nil =>
      have hstep : cigarRuns (op :: ops) = [(1, cigarOpChar op)] := by
        simp only [cigarRuns]
        rw [hruns]
      rw [hstep] at hr
      exact ⟨op, by rw [List.mem_singleton.mp hr]⟩
    | cons run rs =>
      obtain ⟨cnt, ch⟩ := run
      have hstep : cigarRuns (op :: ops) =
          if cigarOpChar op = ch then (cnt + 1, ch) :: rs
          else (1, cigarOpChar op) :: (cnt, ch) :: rs := by
        simp only [cigarRuns]
        rw [hruns]
      rw [hstep] at hr
      by_cases hc : cigarOpChar op = ch
      · rw [if_pos hc] at hr
        rcases List.mem_cons.mp hr with rfl | hr2
        · exact ⟨op, hc.symm⟩
        · exact ih r (by rw [hruns]; exact List.mem_cons_of_mem _ hr2)
      · rw [if_neg hc] at hr
        rcases List.mem_cons.mp hr with rfl | hr2
        · exact ⟨op, rfl⟩
        · exact ih r (by rw [hruns]; exact hr2)

theorem cigarRuns_expand :
    ∀ al : List Nat,
      (cigarRuns al).flatMap (fun r => List.replicate r.1 r.2) = al.map cigarOpChar := by
  intro al
  induction al with
  | nil => rfl
  | cons op ops ih =>
    cases hruns : cigarRuns ops with
    | nil =>
      have hstep : cigarRuns (op :: ops) = [(1, cigarOpChar op)] := by
        simp only [cigarRuns]
        rw [hruns]
      rw [hruns] at ih
      simp at ih
      rw [hstep]
      simp [List.map_cons, ← ih]
    | cons run rs =>
      obtain ⟨cnt, ch⟩ := run
      have hstep : cigarRuns (op :: ops) =
          if cigarOpChar op = ch then (cnt + 1, ch) :: rs
          else (1, cigarOpChar op) :: (cnt, ch) :: rs := by
        simp only [cigarRuns]
        rw [hruns]
      rw [hruns] at ih
      rw [hstep]
      by_cases hc : cigarOpChar op = ch
      · rw [if_pos hc]
        rw [List.flatMap_cons] at ih ⊢
        simp only [List.map_cons, ← ih]
        rw [← hc]
        simp [List.replicate_succ]
      · rw [if_neg hc]
        rw [List.flatMap_cons] at ih ⊢
        simp only [List.map_cons, ← ih]
        simp [List.replicate_succ]

theorem flatMap_encodeRun_length :
    ∀ runs : List (Nat × Char), runs.length ≤ (runs.flatMap encodeRun).length := by
  intro runs
  induction runs with
  | nil => simp
  | cons run rs ih =>
    rw [List.flatMap_cons, List.length_append, List.length_cons]
    have h1 : 1 ≤ (encodeRun run).length := by
      show 1 ≤ (toDecimal run.1 ++ [run.2]).length
      rw [List.length_append]
      simp
    omega

theorem decode_cigarChars (al : List Nat) :
    decodeCigar (cigarChars al) = some (al.map cigarOpChar) := by
  show decodeAux (((cigarRuns al).flatMap encodeRun).length + 1) ((cigarRuns al).flatMap encodeRun) = _
  rw [decodeAux_encodes (cigarRuns al) _
    (by have := flatMap_encodeRun_length (cigarRuns al); omega)
    (cigarRuns_pos al)
    (fun r hr => by
      obtain ⟨op, hop⟩ := cigarRuns_snd al r hr
      rw [hop]
      exact isDigitCh_cigarOpChar op)]
  rw [cigarRuns_expand]

theorem cigarChars_no_nul (al : List Nat) : ∀ c ∈ cigarChars al, c.toNat ≠ 0 := by
  intro c hc
  unfold cigarChars at hc
  rw [List.mem_flatMap] at hc
  obtain ⟨r, hr, hcr⟩ := hc
  rcases List.mem_append.mp hcr with h1 | h2
  · have hd := toDecimalAux_digits (r.1 + 1) r.1 c h1
    have : 48 ≤ c.toNat := by
      unfold isDigitCh at hd
      simp at hd
      omega
    omega
  · rw [List.mem_singleton.mp h2]
    obtain ⟨op, hop⟩ := cigarRuns_snd al r hr
    rw [hop]
    rcases cigarOpChar_cases op with h | h | h <;> rw [h] <;> decide

/-! ### The claims -/

/-- C1: for every pair of sequences, the best score computed by
`myersCalcEditDistance` in NW mode with unrestricted `k` (negative, or at least
`max(|query|, |target|)`) equals the classic Levenshtein edit distance as
defined by the full dynamic-programming matrix with match 0, mismatch 1,
insertion 1, deletion 1. -/
theorem claim_C1_nw_score_is_levenshtein (q t : List Nat) (a : Nat) (k : Int) (f : Bool)
    (hk : k < 0 ∨ ((max q.length t.length : Nat) : Int) ≤ k) :
    (myersCalcEditDistance q t a k .NW f).bestScore = (levRow q t q.length t.length : Int) := by
  have hfound : k < 0 ∨ (modeBestScore .NW q t : Int) ≤ k := by
    rcases hk with h | h
    · exact Or.inl h
    · right
      have hb := modeBestScore_le_max .NW q t
      omega
  rw [myers_found q t a k .NW f hfound]
  show (modeBestScore .NW q t : Int) = _
  rw [modeBestScore_NW_eq]

/-- Witness for C1 at a concrete input: query [0,1], target [0,2], k = -1. -/
theorem claim_C1_witness :
    ((-1 : Int) < 0 ∨ ((max (List.length [0, 1]) (List.length [0, 2]) : Nat) : Int) ≤ -1) ∧
    (myersCalcEditDistance [0, 1] [0, 2] 4 (-1) .NW true).bestScore =
      (levRow [0, 1] [0, 2] 2 2 : Int) :=
  ⟨Or.inl (by decide),
    claim_C1_nw_score_is_levenshtein [0, 1] [0, 2] 4 (-1) true (Or.inl (by decide))⟩

/-- C2: whenever a score within the threshold exists (negative `k`, or the best
score is at most `k`), the call reports the minimal achievable score of the
active mode, and the positions buffer is exactly the nonempty,
strictly-ascending, complete list of eligible end columns achieving it, with
`numPositions` its length. -/
theorem claim_C2_positions_complete (q t : List Nat) (a : Nat) (k : Int) (mode : Mode)
    (f : Bool) (hfound : k < 0 ∨ (modeBestScore mode q t : Int) ≤ k) :
    (myersCalcEditDistance q t a k mode f).bestScore = (modeBestScore mode q t : Int) ∧
    (myersCalcEditDistance q t a k mode f).positions = some (positionsList mode q t) ∧
    (myersCalcEditDistance q t a k mode f).numPositions = (positionsList mode q t).length ∧
    positionsList mode q t ≠ [] ∧
    List.Pairwise (· < ·) (positionsList mode q t) ∧
    (∀ j ∈ eligCols mode t.length, modeBestScore mode q t ≤ bottomAt mode q t j) ∧
    (∀ j ∈ eligCols mode t.length, bottomAt mode q t j = modeBestScore mode q t →
      ((j : Int) - 1) ∈ positionsList mode q t) := by
  rw [myers_found q t a k mode f hfound]
  exact ⟨rfl, rfl, rfl, positionsList_ne_nil mode q t, positionsList_pairwise mode q t,
    fun j hj => modeBestScore_le_bottom mode q t hj,
    fun j hj hb => mem_positionsList hj (posElig_of_bottom hb)⟩

/-- Witness for C2 at a concrete input with tying end columns: query [0],
target [1,0,0], HW mode, k = -1. -/
theorem claim_C2_witness :
    ((-1 : Int) < 0 ∨ (modeBestScore .HW [0] [1, 0, 0] : Int) ≤ -1) ∧
    ((myersCalcEditDistance [0] [1, 0, 0] 2 (-1) .HW false).bestScore =
        (modeBestScore .HW [0] [1, 0, 0] : Int) ∧
      (myersCalcEditDistance [0] [1, 0, 0] 2 (-1) .HW false).positions =
        some (positionsList .HW [0] [1, 0, 0]) ∧
      (myersCalcEditDistance [0] [1, 0, 0] 2 (-1) .HW false).numPositions =
        (positionsList .HW [0] [1, 0, 0]).length ∧
      positionsList .HW [0] [1, 0, 0] ≠ [] ∧
      List.Pairwise (· < ·) (positionsList .HW [0] [1, 0, 0]) ∧
      (∀ j ∈ eligCols .HW (List.length [1, 0, 0]),
        modeBestScore .HW [0] [1, 0, 0] ≤ bottomAt .HW [0] [1, 0, 0] j) ∧
      (∀ j ∈ eligCols .HW (List.length [1, 0, 0]),
        bottomAt .HW [0] [1, 0, 0] j = modeBestScore .HW [0] [1, 0, 0] →
        ((j : Int) - 1) ∈ positionsList .HW [0] [1, 0, 0])) :=
  ⟨Or.inl (by decide),
    claim_C2_positions_complete [0] [1, 0, 0] 2 (-1) .HW false (Or.inl (by decide))⟩

/-- C3: with a non-negative caller threshold `k` and no achievable score at
most `k`, the call still returns the OK status (never ERROR), reports the
sentinel score -1, a NULL positions buffer, no positions and no alignment. -/
theorem claim_C3_no_score_is_ok (q t : List Nat) (a : Nat) (k : Int) (mode : Mode) (f : Bool)
    (h0 : 0 ≤ k) (h1 : k < (modeBestScore mode q t : Int)) :
    (myersCalcEditDistance q t a k mode f).status = MYERS_STATUS_OK ∧
    (myersCalcEditDistance q t a k mode f).status ≠ MYERS_STATUS_ERROR ∧
    (myersCalcEditDistance q t a k mode f).bestScore = -1 ∧
    (myersCalcEditDistance q t a k mode f).positions = none ∧
    (myersCalcEditDistance q t a k mode f).numPositions = 0 ∧
    (myersCalcEditDistance q t a k mode f).alignment = none ∧
    (myersCalcEditDistance q t a k mode f).alignmentLength = 0 := by
  rw [myers_notfound q t a k mode f h0 h1]
  exact ⟨rfl, by decide, rfl, rfl, rfl, rfl, rfl⟩

/-- Witness for C3: query [0], target [1] differ, k = 0 below the true
distance 1. -/
theorem claim_C3_witness :
    (0 ≤ (0 : Int) ∧ (0 : Int) < (modeBestScore .NW [0] [1] : Int)) ∧
    ((myersCalcEditDistance [0] [1] 2 0 .NW true).status = MYERS_STATUS_OK ∧
      (myersCalcEditDistance [0] [1] 2 0 .NW true).status ≠ MYERS_STATUS_ERROR ∧
      (myersCalcEditDistance [0] [1] 2 0 .NW true).bestScore = -1 ∧
      (myersCalcEditDistance [0] [1] 2 0 .NW true).positions = none ∧
      (myersCalcEditDistance [0] [1] 2 0 .NW true).numPositions = 0 ∧
      (myersCalcEditDistance [0] [1] 2 0 .NW true).alignment = none ∧
      (myersCalcEditDistance [0] [1] 2 0 .NW true).alignmentLength = 0) :=
  ⟨⟨by decide, by decide⟩, claim_C3_no_score_is_ok [0] [1] 2 0 .NW true (by decide) (by decide)⟩

/-- C4: with a negative caller threshold (the auto-grow sentinel) the call
terminates with the true minimal score of the active mode — never the -1
sentinel — and that score is bounded by `max(|query|, |target|)`. -/
theorem claim_C4_auto_grow_terminates (q t : List Nat) (a : Nat) (k : Int) (mode : Mode)
    (f : Bool) (hk : k < 0) :
    (myersCalcEditDistance q t a k mode f).bestScore = (modeBestScore mode q t : Int) ∧
    (myersCalcEditDistance q t a k mode f).bestScore ≠ -1 ∧
    modeBestScore mode q t ≤ max q.length t.length := by
  rw [myers_found q t a k mode f (Or.inl hk)]
  refine ⟨rfl, ?_, modeBestScore_le_max mode q t⟩
  show (modeBestScore mode q t : Int) ≠ -1
  omega

/-- Witness for C4: query [0,1,2], target [2,1], k = -1, OV mode. -/
theorem claim_C4_witness :
    ((-1 : Int) < 0) ∧
    ((myersCalcEditDistance [0, 1, 2] [2, 1] 3 (-1) .OV false).bestScore =
        (modeBestScore .OV [0, 1, 2] [2, 1] : Int) ∧
      (myersCalcEditDistance [0, 1, 2] [2, 1] 3 (-1) .OV false).bestScore ≠ -1 ∧
      modeBestScore .OV [0, 1, 2] [2, 1] ≤ max (List.length [0, 1, 2]) (List.length [2, 1])) :=
  ⟨by decide, claim_C4_auto_grow_terminates [0, 1, 2] [2, 1] 3 (-1) .OV false (by decide)⟩

/-- C5: raising the threshold from `k` to `k' > k` after a score was found at
`k` leaves the found best score identical and never decreases the number of
qualifying end positions. -/
theorem claim_C5_threshold_monotone (q t : List Nat) (a : Nat) (mode : Mode) (f : Bool)
    (k k' : Int) (h0 : 0 ≤ k) (h1 : k < k')
    (hf : (myersCalcEditDistance q t a k mode f).bestScore ≠ -1) :
    (myersCalcEditDistance q t a k' mode f).bestScore =
      (myersCalcEditDistance q t a k mode f).bestScore ∧
    (myersCalcEditDistance q t a k mode f).numPositions ≤
      (myersCalcEditDistance q t a k' mode f).numPositions := by
  have hfound : (modeBestScore mode q t : Int) ≤ k := by
    by_contra hgt
    rw [myers_notfound q t a k mode f h0 (by omega)] at hf
    exact hf rfl
  rw [myers_found q t a k mode f (Or.inr hfound),
    myers_found q t a k' mode f (Or.inr (by omega))]
  exact ⟨rfl, le_refl _⟩

/-- Witness for C5: query [0,1], target [0,2], thresholds 1 and 3. -/
theorem claim_C5_witness :
    (0 ≤ (1 : Int) ∧ (1 : Int) < 3 ∧
      (myersCalcEditDistance [0, 1] [0, 2] 4 1 .NW false).bestScore ≠ -1) ∧
    ((myersCalcEditDistance [0, 1] [0, 2] 4 3 .NW false).bestScore =
        (myersCalcEditDistance [0, 1] [0, 2] 4 1 .NW false).bestScore ∧
      (myersCalcEditDistance [0, 1] [0, 2] 4 1 .NW false).numPositions ≤
        (myersCalcEditDistance [0, 1] [0, 2] 4 3 .NW false).numPositions) :=
  ⟨⟨by decide, by decide, by decide⟩,
    claim_C5_threshold_monotone [0, 1] [0, 2] 4 .NW false 1 3 (by decide) (by decide) (by decide)⟩

/-- C6: with unrestricted threshold, the best score of each semi-global mode
HW, SHW and OV never exceeds the NW best score on the same inputs: freeing
leading or trailing gaps can only remove cost. -/
theorem claim_C6_semiglobal_le_nw (q t : List Nat) (a : Nat) (f : Bool) :
    (myersCalcEditDistance q t a (-1) .HW f).bestScore ≤
      (myersCalcEditDistance q t a (-1) .NW f).bestScore ∧
    (myersCalcEditDistance q t a (-1) .SHW f).bestScore ≤
      (myersCalcEditDistance q t a (-1) .NW f).bestScore ∧
    (myersCalcEditDistance q t a (-1) .OV f).bestScore ≤
      (myersCalcEditDistance q t a (-1) .NW f).bestScore := by
  rw [myers_found q t a (-1) .HW f (Or.inl (by omega)),
    myers_found q t a (-1) .SHW f (Or.inl (by omega)),
    myers_found q t a (-1) .OV f (Or.inl (by omega)),
    myers_found q t a (-1) .NW f (Or.inl (by omega))]
  refine ⟨?_, ?_, ?_⟩
  · show (modeBestScore .HW q t : Int) ≤ (modeBestScore .NW q t : Int)
    exact_mod_cast modeBestScore_le_NW .HW q t
  · show (modeBestScore .SHW q t : Int) ≤ (modeBestScore .NW q t : Int)
    exact_mod_cast modeBestScore_le_NW .SHW q t
  · show (modeBestScore .OV q t : Int) ≤ (modeBestScore .NW q t : Int)
    exact_mod_cast modeBestScore_le_NW .OV q t

/-- C9: a query of length 5 against the empty target in NW mode yields best
score 5 (five insertions to query) and the single end position -1, the
absent-column convention for an empty target. -/
theorem claim_C9_empty_target (q : List Nat) (a : Nat) (k : Int) (f : Bool)
    (hq : q.length = 5) (hk : k < 0 ∨ (5 : Int) ≤ k) :
    (myersCalcEditDistance q [] a k .NW f).bestScore = 5 ∧
    (myersCalcEditDistance q [] a k .NW f).positions = some [-1] ∧
    (myersCalcEditDistance q [] a k .NW f).numPositions = 1 := by
  have hbest : modeBestScore .NW q [] = 5 := by
    show colAt .NW q [] 0 q.length = 5
    rw [colAt_zero]
    simp [colInit, show freeLeadTargetGap .NW = false from rfl, hq]
  have hfound : k < 0 ∨ (modeBestScore .NW q [] : Int) ≤ k := by
    rcases hk with h | h
    · exact Or.inl h
    · right
      rw [hbest]
      exact h
  have hpos : positionsList .NW q [] = [-1] := by
    unfold positionsList
    have he : posElig .NW q [] 0 = true := posElig_of_bottom rfl
    show ([0].filter (posElig .NW q [])).map _ = [-1]
    rw [List.filter_cons, if_pos (by rw [he])]
    simp
  rw [myers_found q [] a k .NW f hfound]
  refine ⟨?_, ?_, ?_⟩
  · show (modeBestScore .NW q [] : Int) = 5
    rw [hbest]
    decide
  · show some (positionsList .NW q []) = some [-1]
    rw [hpos]
  · show (positionsList .NW q []).length = 1
    rw [hpos]
    rfl

/-- Witness for C9: query [0,0,0,0,0], k = -1. -/
theorem claim_C9_witness :
    (List.length [0, 0, 0, 0, 0] = 5 ∧ ((-1 : Int) < 0 ∨ (5 : Int) ≤ -1)) ∧
    ((myersCalcEditDistance [0, 0, 0, 0, 0] [] 4 (-1) .NW true).bestScore = 5 ∧
      (myersCalcEditDistance [0, 0, 0, 0, 0] [] 4 (-1) .NW true).positions = some [-1] ∧
      (myersCalcEditDistance [0, 0, 0, 0, 0] [] 4 (-1) .NW true).numPositions = 1) :=
  ⟨⟨by decide, Or.inl (by decide)⟩,
    claim_C9_empty_target [0, 0, 0, 0, 0] 4 (-1) true (by decide) (Or.inl (by decide))⟩

/-- C10: the alignment output is always written: it is NULL exactly when no
alignment was requested or the score is the -1 sentinel, and whenever it is
non-NULL the reported alignment length is the length of the returned
operation array. -/
theorem claim_C10_alignment_pointer (q t : List Nat) (a : Nat) (k : Int) (mode : Mode)
    (f : Bool) :
    ((myersCalcEditDistance q t a k mode f).alignment = none ↔
      (f = false ∨ (myersCalcEditDistance q t a k mode f).bestScore = -1)) ∧
    (∀ l, (myersCalcEditDistance q t a k mode f).alignment = some l →
      (myersCalcEditDistance q t a k mode f).alignmentLength = l.length) := by
  by_cases hfound : k < 0 ∨ (modeBestScore mode q t : Int) ≤ k
  · rw [myers_found q t a k mode f hfound]
    cases f with
    | false => simp
    | true =>
      constructor
      · constructor
        · intro h
          simp at h
        · intro h
          rcases h with h | h
          · exact absurd h (by simp)
          · exfalso
            have : (modeBestScore mode q t : Int) = -1 := h
            omega
      · intro l hl
        simp at hl
        simp [hl]
  · have h0 : 0 ≤ k := by omega
    have h1 : k < (modeBestScore mode q t : Int) := by omega
    rw [myers_notfound q t a k mode f h0 h1]
    simp

/-- C7 counterexample: in OV mode the leading free gap on the target side lets
the traceback stop before the first query character, so the returned alignment
need not consume the query from its first character: for query [0,1], target
[1], the call returns best score 0, first position 0, and the one-operation
alignment [0] (a single match of the second query character), and no replay of
that alignment starting at the beginning of the query succeeds at all. -/
theorem claim_C7_counterexample :
    (myersCalcEditDistance [0, 1] [1] 2 (-1) .OV true).bestScore = 0 ∧
    (myersCalcEditDistance [0, 1] [1] 2 (-1) .OV true).positions = some [0] ∧
    (myersCalcEditDistance [0, 1] [1] 2 (-1) .OV true).alignment = some [0] ∧
    List.length [0] ≠ List.length [0, 1] ∧
    (∀ j0 : Nat, replayFrom [0, 1] [1] 0 j0 [0] = none) := by
  refine ⟨by decide, by decide, by decide, by decide, ?_⟩
  intro j0
  cases j0 with
  | zero => decide
  | succ j0 =>
    rw [replayFrom_cons_zero, if_neg]
    intro hg
    have h2 := hg.2.1
    simp at h2

/-- C7 (amended): for the modes that charge the leading gap on the target side
(NW, HW, SHW — every mode except OV), whenever a score is found and an
alignment is requested, the returned alignment replays against query and
target from the first query character: the replay starts at query index 0 and
some target column (column 0 unless the mode frees the gap before the query),
succeeds, consumes the query through its last character, ends exactly at
target column positions[0], and its total cost is exactly the reported best
score.  (In OV mode free leading query characters are omitted from the
alignment, so the replay need not start at the first query character.) -/
theorem claim_C7_replay_valid (q t : List Nat) (a : Nat) (k : Int) (mode : Mode)
    (hmode : mode ≠ .OV)
    (hfound : k < 0 ∨ (modeBestScore mode q t : Int) ≤ k) :
    ∃ al p0 rest j0 jend,
      (myersCalcEditDistance q t a k mode true).alignment = some al ∧
      (myersCalcEditDistance q t a k mode true).positions = some (p0 :: rest) ∧
      (myersCalcEditDistance q t a k mode true).bestScore = (modeBestScore mode q t : Int) ∧
      replayFrom q t 0 j0 al = some (modeBestScore mode q t, q.length, jend) ∧
      (jend : Int) - 1 = p0 ∧
      (freeLeadQueryGap mode = true ∨ j0 = 0) := by
  obtain ⟨j, rest, hjmem, hposj, hplist⟩ := positionsList_head mode q t
  have hbottom : bottomAt mode q t j = modeBestScore mode q t := bottom_of_posElig hmode hposj
  have hjle : j ≤ t.length := mem_eligCols_le hjmem
  have hend : endColumn (positionsList mode q t) = j := by
    rw [hplist]
    show (((j : Int) - 1) + 1).toNat = j
    have h1 : (j : Int) - 1 + 1 = (j : Int) := by omega
    rw [h1, Int.toNat_natCast]
  have htr : traceback mode q t = tbAux mode q t (q.length + j) q.length j := by
    unfold traceback
    rw [hend]
  obtain ⟨i0, j0, hstop, hrep⟩ :=
    tb_replay mode q t (q.length + j) q.length j (le_refl _) (le_refl _) hjle
  have hi0 : i0 = 0 := by
    rcases hstop with ⟨h, _⟩ | ⟨_, hT⟩
    · exact h
    · cases mode with
      | OV => exact absurd rfl hmode
      | NW | HW | SHW => exact absurd hT (by decide)
  subst hi0
  have hcost : colAt mode q t j q.length = modeBestScore mode q t := hbottom
  rw [hcost] at hrep
  have hfree : freeLeadQueryGap mode = true ∨ j0 = 0 := by
    rcases hstop with ⟨_, h⟩ | ⟨hj0, _⟩
    · exact h
    · exact Or.inr hj0
  rw [myers_found q t a k mode true hfound]
  refine ⟨tbAux mode q t (q.length + j) q.length j, (j : Int) - 1, rest, j0, j,
    ?_, ?_, rfl, hrep, rfl, hfree⟩
  · show (if true = true then some (traceback mode q t) else none) = _
    rw [if_pos rfl, htr]
  · show some (positionsList mode q t) = _
    rw [hplist]

/-- Witness for the amended C7: query [0,1,2], target [0,2], NW mode, k = -1. -/
theorem claim_C7_witness :
    (Mode.NW ≠ Mode.OV ∧
      ((-1 : Int) < 0 ∨ (modeBestScore .NW [0, 1, 2] [0, 2] : Int) ≤ -1)) ∧
    (∃ al p0 rest j0 jend,
      (myersCalcEditDistance [0, 1, 2] [0, 2] 4 (-1) .NW true).alignment = some al ∧
      (myersCalcEditDistance [0, 1, 2] [0, 2] 4 (-1) .NW true).positions =
        some (p0 :: rest) ∧
      (myersCalcEditDistance [0, 1, 2] [0, 2] 4 (-1) .NW true).bestScore =
        (modeBestScore .NW [0, 1, 2] [0, 2] : Int) ∧
      replayFrom [0, 1, 2] [0, 2] 0 j0 al =
        some (modeBestScore .NW [0, 1, 2] [0, 2], List.length [0, 1, 2], jend) ∧
      (jend : Int) - 1 = p0 ∧
      (freeLeadQueryGap .NW = true ∨ j0 = 0)) :=
  ⟨⟨by decide, Or.inl (by decide)⟩,
    claim_C7_replay_valid [0, 1, 2] [0, 2] 4 (-1) .NW (by decide) (Or.inl (by decide))⟩

/-- C8: CIGAR round-trip: the encoder returns the OK status; decoding the
produced string (expanding every run) yields exactly the original sequence of
operation classes, where match (0) and mismatch (3) share the class character
M, insertion to target (1) maps to I, insertion to query (2) maps to the
distinct D; every run length is a positive decimal integer; and no character
of the output is the NUL terminator, so the C string terminates exactly after
these characters. -/
theorem claim_C8_cigar_roundtrip (al : List Nat) (hne : al ≠ [])
    (hops : ∀ op ∈ al, op < 4) :
    (edlibAlignmentToCigar al).1 = MYERS_STATUS_OK ∧
    decodeCigar (edlibAlignmentToCigar al).2 = some (al.map cigarOpChar) ∧
    cigarOpChar 0 = cigarOpChar 3 ∧
    cigarOpChar 0 = 'M' ∧ cigarOpChar 1 = 'I' ∧ cigarOpChar 2 = 'D' ∧
    cigarOpChar 1 ≠ cigarOpChar 2 ∧
    (∀ r ∈ cigarRuns al, 1 ≤ r.1) ∧
    (∀ c ∈ (edlibAlignmentToCigar al).2, c.toNat ≠ 0) := by
  exact ⟨rfl, decode_cigarChars al, rfl, rfl, rfl, rfl, by decide,
    cigarRuns_pos al, cigarChars_no_nul al⟩

/-- Witness for C8: the alignment [0,0,3,1,1,2,0]. -/
theorem claim_C8_witness :
    (([0, 0, 3, 1, 1, 2, 0] : List Nat) ≠ [] ∧
      (∀ op ∈ ([0, 0, 3, 1, 1, 2, 0] : List Nat), op < 4)) ∧
    ((edlibAlignmentToCigar [0, 0, 3, 1, 1, 2, 0]).1 = MYERS_STATUS_OK ∧
      decodeCigar (edlibAlignmentToCigar [0, 0, 3, 1, 1, 2, 0]).2 =
        some ([0, 0, 3, 1, 1, 2, 0].map cigarOpChar) ∧
      cigarOpChar 0 = cigarOpChar 3 ∧
      cigarOpChar 0 = 'M' ∧ cigarOpChar 1 = 'I' ∧ cigarOpChar 2 = 'D' ∧
      cigarOpChar 1 ≠ cigarOpChar 2 ∧
      (∀ r ∈ cigarRuns [0, 0, 3, 1, 1, 2, 0], 1 ≤ r.1) ∧
      (∀ c ∈ (edlibAlignmentToCigar [0, 0, 3, 1, 1, 2, 0]).2, c.toNat ≠ 0)) :=
  ⟨⟨by decide, by decide⟩,
    claim_C8_cigar_roundtrip [0, 0, 3, 1, 1, 2, 0] (by decide) (by decide)⟩

end Myers
